import Mathlib

/-!
# Verification of the `HammingCode` class (`src/Hamming.py`)

Shallow embedding of the core of `Hamming.py`: the `HammingCode` class with
its constructor, `encode`, `decode` and `simulate_error` methods.  Bits are
modelled as `Nat` (Python ints), bit sequences as `List Nat`, and raised
exceptions (`ValueError`, `IndexError`) as the `Except.error` branch of
`Except String`.  Python's 1-based codeword positions are kept as in the
source; 0-based list reads `xs[i]` become `List.getD xs i 0`, which is in
range wherever the source's accesses are.
-/

/-- The instance state set up by `HammingCode.__init__`. -/
structure HammingCode where
  r : Nat
  n : Nat
  k : Nat
  parity_positions : List Nat
deriving Repr, DecidableEq

/-- The parity-bit position list `[2**i for i in range(r)]` (1-based). -/
def parityList (r : Nat) : List Nat :=
  (List.range r).map (fun i => 2 ^ i)

/-- `HammingCode.__init__(r)`: `n = 2**r - 1`, `k = n - r`,
`parity_positions = [2**i for i in range(r)]`.  The source performs no
validation of `r`; construction always succeeds. -/
def HammingCode.init (r : Nat) : HammingCode :=
  { r := r
    n := 2 ^ r - 1
    k := 2 ^ r - 1 - r
    parity_positions := parityList r }

/-- One step of the data-placement loop in `encode`:
`if i not in self.parity_positions: code[i] = data_bits[j]; j += 1`. -/
def placeStep (pp data_bits : List Nat) (cj : List Nat × Nat) (i : Nat) :
    List Nat × Nat :=
  if i ∉ pp then (cj.1.set i (data_bits.getD cj.2 0), cj.2 + 1) else cj

/-- The coverage list of parity position `p`:
`[i for i in range(1, self.n+1) if i & p]`. -/
def covered (n p : Nat) : List Nat :=
  (List.range' 1 n).filter (fun i => i &&& p != 0)

/-- One step of the parity loop in `encode`:
`code[p] = sum([code[i] for i in range(1, self.n+1) if i & p]) % 2`. -/
def parityStep (n : Nat) (c : List Nat) (p : Nat) : List Nat :=
  c.set p (((covered n p).map (fun i => c.getD i 0)).sum % 2)

/-- `HammingCode.encode`: place the data bits at the non-parity positions of a
1-based zero-initialised buffer, then set each parity position `p` to the sum
mod 2 of the buffer over `p`'s coverage list, and return `code[1:]`. -/
def HammingCode.encode (h : HammingCode) (data_bits : List Nat) :
    Except String (List Nat) :=
  if data_bits.length ≠ h.k then
    .error ("Data length must be " ++ toString h.k)
  else
    let placed := (List.range' 1 h.n).foldl (placeStep h.parity_positions data_bits)
      (List.replicate (h.n + 1) 0, 0)
    let code := h.parity_positions.foldl (parityStep h.n) placed.1
    .ok (code.drop 1)

/-- The per-parity check of `decode`: `sum([codeword[i-1] for i in
range(1, self.n+1) if i & p])`, read from the received codeword. -/
def checkSum (n : Nat) (codeword : List Nat) (p : Nat) : Nat :=
  ((covered n p).map (fun i => codeword.getD (i - 1) 0)).sum

/-- The syndrome loop of `decode`: starting from 0, add `p` for every parity
position `p` whose check sum is odd. -/
def HammingCode.syndrome (h : HammingCode) (codeword : List Nat) : Nat :=
  h.parity_positions.foldl
    (fun s p => if checkSum h.n codeword p % 2 ≠ 0 then s + p else s) 0

/-- Data extraction in `decode`: the bits at the non-parity positions, in
increasing position order (`[code[i-1] for i in range(1, self.n+1) if i not in
self.parity_positions]`). -/
def extractData (n : Nat) (pp : List Nat) (code : List Nat) : List Nat :=
  ((List.range' 1 n).filter (fun i => decide (i ∉ pp))).map
    (fun i => code.getD (i - 1) 0)

/-- `HammingCode.decode`: compute the syndrome from the received codeword; if
it is nonzero flip bit `syndrome - 1` of a copy and report `corrected = true`;
return the extracted data bits and the flag. -/
def HammingCode.decode (h : HammingCode) (codeword : List Nat) :
    Except String (List Nat × Bool) :=
  if codeword.length ≠ h.n then
    .error ("Codeword length must be " ++ toString h.n)
  else
    let syndrome := h.syndrome codeword
    let cc : List Nat × Bool :=
      if syndrome ≠ 0 then
        (codeword.set (syndrome - 1) (codeword.getD (syndrome - 1) 0 ^^^ 1), true)
      else (codeword, false)
    .ok (extractData h.n h.parity_positions cc.1, cc.2)

/-- `HammingCode.simulate_error`: raise `IndexError` when `pos < 1 or
pos > self.n`, otherwise return a copy with the bit at 1-based `pos`
flipped. -/
def HammingCode.simulate_error (h : HammingCode) (codeword : List Nat)
    (pos : Int) : Except String (List Nat) :=
  if pos < 1 ∨ pos > (h.n : Int) then .error "Position out of range"
  else
    .ok (codeword.set (pos.toNat - 1)
      (codeword.getD (pos.toNat - 1) 0 ^^^ 1))

/-- Heap model of `decode` for the frame property: Python lists live in a
store (list of list cells) and are passed by reference.  `codeword.copy()`
allocates a fresh cell holding the same contents, and the corrective
`code[syndrome-1] ^= 1` writes through the fresh reference only.  Returns the
final store together with `decode`'s result. -/
def HammingCode.decodeHeap (h : HammingCode) (store : List (List Nat))
    (cw : Nat) : List (List Nat) × Except String (List Nat × Bool) :=
  let codeword := store.getD cw []
  if codeword.length ≠ h.n then
    (store, .error ("Codeword length must be " ++ toString h.n))
  else
    let syndrome := h.syndrome codeword
    let code := store.length
    let store1 := store ++ [codeword]
    let store2 :=
      if syndrome ≠ 0 then
        store1.set code ((store1.getD code []).set (syndrome - 1)
          ((store1.getD code []).getD (syndrome - 1) 0 ^^^ 1))
      else store1
    (store2, .ok (extractData h.n h.parity_positions (store2.getD code []),
      syndrome != 0))

/-- A bit sequence: every element is 0 or 1. -/
def IsBits (l : List Nat) : Prop := ∀ b ∈ l, b = 0 ∨ b = 1

instance : DecidablePred IsBits := fun l =>
  List.decidableBAll (fun b => b = 0 ∨ b = 1) l

/-! Proof-layer definitions naming the intermediate states of `encode`. -/

/-- The in-order set-and-advance fold underlying the data-placement loop once
the skipped parity positions are filtered away. -/
def setFold (data : List Nat) (cj : List Nat × Nat) (l : List Nat) :
    List Nat × Nat :=
  l.foldl (fun cj i => (cj.1.set i (data.getD cj.2 0), cj.2 + 1)) cj

/-- The buffer of `encode` after the data-placement loop (1-based, slot 0
unused). -/
def placedCode (r : Nat) (data : List Nat) : List Nat :=
  ((List.range' 1 (2 ^ r - 1)).foldl (placeStep (parityList r) data)
    (List.replicate (2 ^ r - 1 + 1) 0, 0)).1

/-- The buffer of `encode` after the parity loop. -/
def encodedCode (r : Nat) (data : List Nat) : List Nat :=
  (parityList r).foldl (parityStep (2 ^ r - 1)) (placedCode r data)

/-- The non-parity (data-carrying) positions `1..n` in increasing order. -/
def dataPositions (r : Nat) : List Nat :=
  (List.range' 1 (2 ^ r - 1)).filter (fun i => decide (i ∉ parityList r))

/-! ## Basic list lemmas -/

theorem getD_set_self {α : Type} (l : List α) {i : Nat} (a d : α)
    (h : i < l.length) : (l.set i a).getD i d = a := by
  rw [List.getD_eq_getElem?_getD, List.getElem?_set_self h]
  rfl

theorem getD_set_ne {α : Type} (l : List α) {i j : Nat} (h : i ≠ j)
    (a d : α) : (l.set i a).getD j d = l.getD j d := by
  rw [List.getD_eq_getElem?_getD, List.getElem?_set_ne h,
    ← List.getD_eq_getElem?_getD]

theorem set_getD_self {α : Type} (l : List α) {i : Nat} (d : α)
    (h : i < l.length) : l.set i (l.getD i d) = l := by
  apply List.ext_getElem?
  intro m
  by_cases hm : i = m
  · subst hm
    rw [List.getElem?_set_self h, List.getD_eq_getElem l d h]
    exact (List.getElem?_eq_getElem h).symm
  · exact List.getElem?_set_ne hm

theorem getD_replicate_zero (m i : Nat) :
    (List.replicate m (0 : Nat)).getD i 0 = 0 := by
  rw [List.getD_eq_getElem?_getD, List.getElem?_replicate]
  split <;> rfl

theorem drop_one_getD (l : List Nat) {i : Nat} (h : 1 ≤ i) :
    (l.drop 1).getD (i - 1) 0 = l.getD i 0 := by
  have h2 : 1 + (i - 1) = i := by omega
  rw [List.getD_eq_getElem?_getD, List.getD_eq_getElem?_getD,
    List.getElem?_drop, h2]

/-! ## Parity positions and coverage lists -/

theorem mem_parityList {r q : Nat} :
    q ∈ parityList r ↔ ∃ a, a < r ∧ 2 ^ a = q := by
  simp [parityList, List.mem_map, List.mem_range]

theorem parityList_nodup (r : Nat) : (parityList r).Nodup :=
  List.Nodup.map (Nat.pow_right_injective (by norm_num)) (List.nodup_range r)

theorem parityList_length (r : Nat) : (parityList r).length = r := by
  simp [parityList]

theorem mem_parityList_pos {r p : Nat} (h : p ∈ parityList r) : 1 ≤ p := by
  obtain ⟨a, _, rfl⟩ := mem_parityList.mp h
  exact Nat.one_le_two_pow

theorem mem_parityList_le {r p : Nat} (h : p ∈ parityList r) : p ≤ 2 ^ r - 1 := by
  obtain ⟨a, ha, rfl⟩ := mem_parityList.mp h
  have : 2 ^ a < 2 ^ r := Nat.pow_lt_pow_right (by norm_num) ha
  omega

theorem parityList_sum (r : Nat) : (parityList r).sum = 2 ^ r - 1 := by
  induction r with
  | zero => rfl
  | succ r ih =>
    have h1 : 1 ≤ 2 ^ r := Nat.one_le_two_pow
    have h2 : 2 ^ (r + 1) = 2 ^ r * 2 := pow_succ 2 r
    simp only [parityList, List.range_succ, List.map_append, List.sum_append,
      List.map_cons, List.map_nil, List.sum_cons, List.sum_nil]
    have ih' : ((List.range r).map (fun i => 2 ^ i)).sum = 2 ^ r - 1 := ih
    omega

theorem two_pow_and_two_pow {a b : Nat} (h : a ≠ b) : 2 ^ a &&& 2 ^ b = 0 := by
  rw [Nat.and_two_pow, Nat.testBit_two_pow]
  simp [h]

theorem and_two_pow_ne_zero_iff {i a : Nat} :
    i &&& 2 ^ a ≠ 0 ↔ i.testBit a = true := by
  rw [Nat.and_two_pow]
  cases h : i.testBit a <;> simp [h]

theorem mem_covered {n p i : Nat} :
    i ∈ covered n p ↔ 1 ≤ i ∧ i ≤ n ∧ i &&& p ≠ 0 := by
  unfold covered
  rw [List.mem_filter, List.mem_range'_1]
  constructor
  · rintro ⟨⟨h1, h2⟩, h3⟩
    refine ⟨h1, by omega, ?_⟩
    simpa [bne_iff_ne] using h3
  · rintro ⟨h1, h2, h3⟩
    refine ⟨⟨h1, by omega⟩, ?_⟩
    simpa [bne_iff_ne] using h3

theorem covered_nodup (n p : Nat) : (covered n p).Nodup :=
  List.Nodup.filter _ (List.nodup_range' 1 n)

theorem self_mem_covered {r p : Nat} (h : p ∈ parityList r) :
    p ∈ covered (2 ^ r - 1) p := by
  rw [mem_covered, Nat.and_self]
  have h1 := mem_parityList_pos h
  exact ⟨h1, mem_parityList_le h, by omega⟩

theorem parity_mem_covered {r p q : Nat} (hp : p ∈ parityList r)
    (hq : q ∈ parityList r) (h : q ∈ covered (2 ^ r - 1) p) : q = p := by
  obtain ⟨a, _, rfl⟩ := mem_parityList.mp hp
  obtain ⟨b, _, rfl⟩ := mem_parityList.mp hq
  rcases mem_covered.mp h with ⟨_, _, hne⟩
  by_contra hab
  exact hne (two_pow_and_two_pow (fun e => hab (by rw [e])))

/-! ## The data-placement fold -/

theorem place_foldl_eq_setFold (pp data : List Nat) :
    ∀ (l : List Nat) (cj : List Nat × Nat),
    l.foldl (placeStep pp data) cj =
      setFold data cj (l.filter (fun i => decide (i ∉ pp))) := by
  intro l
  induction l with
  | nil => intro cj; rfl
  | cons i t ih =>
    intro cj
    by_cases hi : i ∈ pp
    · have h1 : placeStep pp data cj i = cj := by
        simp [placeStep, hi]
      have h2 : decide (i ∉ pp) = false := by simp [hi]
      simp only [List.foldl_cons, List.filter_cons, h2, h1]
      exact ih cj
    · have h2 : decide (i ∉ pp) = true := by simp [hi]
      simp only [List.foldl_cons, List.filter_cons, h2, if_pos]
      have h1 : placeStep pp data cj i =
          (cj.1.set i (data.getD cj.2 0), cj.2 + 1) := by
        simp [placeStep, hi]
      rw [h1]
      exact ih _

theorem setFold_length (data : List Nat) :
    ∀ (l : List Nat) (c : List Nat) (j : Nat),
    (setFold data (c, j) l).1.length = c.length := by
  intro l
  induction l with
  | nil => intro c j; rfl
  | cons i t ih =>
    intro c j
    have : setFold data (c, j) (i :: t) =
        setFold data (c.set i (data.getD j 0), j + 1) t := rfl
    rw [this, ih]
    exact List.length_set c i _

theorem setFold_getD_not_mem (data : List Nat) :
    ∀ (l : List Nat) (c : List Nat) (j : Nat) {i : Nat}, i ∉ l →
    (setFold data (c, j) l).1.getD i 0 = c.getD i 0 := by
  intro l
  induction l with
  | nil => intro c j i _; rfl
  | cons a t ih =>
    intro c j i hi
    have hia : a ≠ i := fun e => hi (e ▸ List.mem_cons_self a t)
    have hit : i ∉ t := fun ht => hi (List.mem_cons_of_mem a ht)
    have : setFold data (c, j) (a :: t) =
        setFold data (c.set a (data.getD j 0), j + 1) t := rfl
    rw [this, ih _ _ hit]
    exact getD_set_ne c hia _ _

theorem setFold_map_getD (data : List Nat) :
    ∀ (l : List Nat) (c : List Nat) (j : Nat), l.Nodup →
    (∀ i ∈ l, i < c.length) → j + l.length = data.length →
    l.map (fun i => (setFold data (c, j) l).1.getD i 0) = data.drop j := by
  intro l
  induction l with
  | nil =>
    intro c j _ _ hlen
    simp only [List.length_nil, Nat.add_zero] at hlen
    rw [List.map_nil, List.drop_eq_nil_of_le (le_of_eq hlen.symm)]
  | cons a t ih =>
    intro c j hnd hbound hlen
    obtain ⟨hat, hndt⟩ := List.nodup_cons.mp hnd
    have ha : a < c.length := hbound a (List.mem_cons_self a t)
    have hj : j < data.length := by
      simp only [List.length_cons] at hlen
      omega
    have hstep : setFold data (c, j) (a :: t) =
        setFold data (c.set a (data.getD j 0), j + 1) t := rfl
    rw [List.map_cons, hstep]
    have hhead : (setFold data (c.set a (data.getD j 0), j + 1) t).1.getD a 0 =
        data.getD j 0 := by
      rw [setFold_getD_not_mem data t _ _ hat]
      exact getD_set_self c _ _ ha
    have hbound' : ∀ i ∈ t, i < (c.set a (data.getD j 0)).length := by
      intro i hi
      rw [List.length_set]
      exact hbound i (List.mem_cons_of_mem a hi)
    have hlen' : (j + 1) + t.length = data.length := by
      simp only [List.length_cons] at hlen
      omega
    rw [hhead, ih _ _ hndt hbound' hlen']
    rw [List.drop_eq_getElem_cons hj, List.getD_eq_getElem data 0 hj]

/-! ## The parity fold -/

theorem parityFold_length (n : Nat) :
    ∀ (ps : List Nat) (c : List Nat),
    (ps.foldl (parityStep n) c).length = c.length := by
  intro ps
  induction ps with
  | nil => intro c; rfl
  | cons p t ih =>
    intro c
    rw [List.foldl_cons, ih]
    exact List.length_set c p _

theorem parityFold_spec (r : Nat) (c1 : List Nat)
    (hc1len : c1.length = 2 ^ r - 1 + 1) :
    ∀ (ps : List Nat) (c : List Nat), ps.Nodup →
    (∀ p ∈ ps, p ∈ parityList r) →
    c.length = c1.length →
    (∀ i ∈ ps, c.getD i 0 = c1.getD i 0) →
    (∀ i, i ∉ parityList r → c.getD i 0 = c1.getD i 0) →
    (∀ i, i ∉ ps →
      (ps.foldl (parityStep (2 ^ r - 1)) c).getD i 0 = c.getD i 0) ∧
    (∀ p ∈ ps, (ps.foldl (parityStep (2 ^ r - 1)) c).getD p 0 =
      ((covered (2 ^ r - 1) p).map (fun i => c1.getD i 0)).sum % 2) := by
  intro ps
  induction ps with
  | nil => intro c _ _ _ _ _; exact ⟨fun i _ => rfl, fun p hp => absurd hp (by simp)⟩
  | cons p t ih =>
    intro c hnd hsub hlen hagree hoff
    obtain ⟨hpt, hndt⟩ := List.nodup_cons.mp hnd
    have hppl : p ∈ parityList r := hsub p (List.mem_cons_self p t)
    have hplt : p < c.length := by
      have := mem_parityList_le hppl
      omega
    -- the value written at `p` only reads positions agreeing with `c1`
    have hval : ((covered (2 ^ r - 1) p).map (fun i => c.getD i 0)).sum % 2 =
        ((covered (2 ^ r - 1) p).map (fun i => c1.getD i 0)).sum % 2 := by
      have : (covered (2 ^ r - 1) p).map (fun i => c.getD i 0) =
          (covered (2 ^ r - 1) p).map (fun i => c1.getD i 0) := by
        apply List.map_congr_left
        intro i hi
        by_cases hipar : i ∈ parityList r
        · have : i = p := parity_mem_covered hppl hipar hi
          subst this
          exact hagree i (List.mem_cons_self i t)
        · exact hoff i hipar
      rw [this]
    have hstep : (p :: t).foldl (parityStep (2 ^ r - 1)) c =
        t.foldl (parityStep (2 ^ r - 1)) (parityStep (2 ^ r - 1) c p) := rfl
    set c' := parityStep (2 ^ r - 1) c p with hc'
    have hc'len : c'.length = c1.length := by
      rw [hc', parityStep, List.length_set, hlen]
    have hc'agree : ∀ i ∈ t, c'.getD i 0 = c1.getD i 0 := by
      intro i hi
      have hne : p ≠ i := fun e => hpt (e ▸ hi)
      rw [hc', parityStep, getD_set_ne c hne]
      exact hagree i (List.mem_cons_of_mem p hi)
    have hc'off : ∀ i, i ∉ parityList r → c'.getD i 0 = c1.getD i 0 := by
      intro i hi
      have hne : p ≠ i := fun e => hi (e ▸ hppl)
      rw [hc', parityStep, getD_set_ne c hne]
      exact hoff i hi
    obtain ⟨ih1, ih2⟩ := ih c' hndt
      (fun q hq => hsub q (List.mem_cons_of_mem p hq)) hc'len hc'agree hc'off
    constructor
    · intro i hi
      have hit : i ∉ t := fun ht => hi (List.mem_cons_of_mem p ht)
      have hip : p ≠ i := fun e => hi (e ▸ List.mem_cons_self p t)
      rw [hstep, ih1 i hit, hc', parityStep, getD_set_ne c hip]
    · intro q hq
      rcases List.mem_cons.mp hq with hq | hq
      · subst hq
        rw [hstep, ih1 q hpt, hc', parityStep, getD_set_self c _ _ hplt]
        exact hval
      · rw [hstep]
        exact ih2 q hq

/-! ## The data-carrying positions -/

theorem dataPositions_nodup (r : Nat) : (dataPositions r).Nodup :=
  List.Nodup.filter _ (List.nodup_range' 1 (2 ^ r - 1))

theorem mem_dataPositions {r i : Nat} :
    i ∈ dataPositions r ↔ 1 ≤ i ∧ i ≤ 2 ^ r - 1 ∧ i ∉ parityList r := by
  unfold dataPositions
  rw [List.mem_filter, List.mem_range'_1]
  simp only [decide_eq_true_eq]
  constructor
  · rintro ⟨⟨h1, h2⟩, h3⟩
    exact ⟨h1, by omega, h3⟩
  · rintro ⟨h1, h2, h3⟩
    exact ⟨⟨h1, by omega⟩, h3⟩

theorem dataPositions_length (r : Nat) :
    (dataPositions r).length = 2 ^ r - 1 - r := by
  have hperm := List.filter_append_perm
    (fun i => decide (i ∈ parityList r)) (List.range' 1 (2 ^ r - 1))
  have hlen := hperm.length_eq
  rw [List.length_append, List.length_range'] at hlen
  have hin : ((List.range' 1 (2 ^ r - 1)).filter
      (fun i => decide (i ∈ parityList r))).length = r := by
    have hp : ((List.range' 1 (2 ^ r - 1)).filter
        (fun i => decide (i ∈ parityList r))).Perm (parityList r) := by
      rw [List.perm_ext_iff_of_nodup
        (List.Nodup.filter _ (List.nodup_range' 1 _)) (parityList_nodup r)]
      intro a
      rw [List.mem_filter, List.mem_range'_1]
      simp only [decide_eq_true_eq]
      constructor
      · rintro ⟨_, h⟩; exact h
      · intro h
        have h1 := mem_parityList_pos h
        have h2 := mem_parityList_le h
        exact ⟨⟨h1, by omega⟩, h⟩
    rw [hp.length_eq, parityList_length]
  have hout : dataPositions r = (List.range' 1 (2 ^ r - 1)).filter
      (fun x => !(decide (x ∈ parityList r))) := by
    unfold dataPositions
    apply List.filter_congr
    intro x _
    simp [decide_not]
  rw [hout]
  omega

/-! ## Characterisation of the encoder buffers -/

theorem placedCode_eq_setFold (r : Nat) (data : List Nat) :
    placedCode r data =
      (setFold data (List.replicate (2 ^ r - 1 + 1) 0, 0) (dataPositions r)).1 := by
  unfold placedCode dataPositions
  rw [place_foldl_eq_setFold]

theorem placedCode_length (r : Nat) (data : List Nat) :
    (placedCode r data).length = 2 ^ r - 1 + 1 := by
  rw [placedCode_eq_setFold, setFold_length]
  exact List.length_replicate _ _

theorem placedCode_getD_not_mem (r : Nat) (data : List Nat) {i : Nat}
    (h : i ∉ dataPositions r) : (placedCode r data).getD i 0 = 0 := by
  rw [placedCode_eq_setFold, setFold_getD_not_mem data _ _ _ h,
    getD_replicate_zero]

theorem placedCode_parity_zero (r : Nat) (data : List Nat) {p : Nat}
    (hp : p ∈ parityList r) : (placedCode r data).getD p 0 = 0 := by
  apply placedCode_getD_not_mem
  intro hmem
  exact (mem_dataPositions.mp hmem).2.2 hp

theorem placedCode_map_getD (r : Nat) (data : List Nat)
    (hlen : data.length = 2 ^ r - 1 - r) :
    (dataPositions r).map (fun i => (placedCode r data).getD i 0) = data := by
  rw [placedCode_eq_setFold]
  have hbound : ∀ i ∈ dataPositions r,
      i < (List.replicate (2 ^ r - 1 + 1) (0 : Nat)).length := by
    intro i hi
    rw [List.length_replicate]
    have := mem_dataPositions.mp hi
    omega
  have hl : 0 + (dataPositions r).length = data.length := by
    rw [dataPositions_length, hlen]
    omega
  have h := setFold_map_getD data (dataPositions r)
    (List.replicate (2 ^ r - 1 + 1) 0) 0 (dataPositions_nodup r) hbound hl
  rw [h, List.drop_zero]

theorem encodedCode_length (r : Nat) (data : List Nat) :
    (encodedCode r data).length = 2 ^ r - 1 + 1 := by
  unfold encodedCode
  rw [parityFold_length, placedCode_length]

theorem encodedCode_getD_not_parity (r : Nat) (data : List Nat) {i : Nat}
    (h : i ∉ parityList r) :
    (encodedCode r data).getD i 0 = (placedCode r data).getD i 0 := by
  unfold encodedCode
  exact (parityFold_spec r (placedCode r data) (placedCode_length r data)
    (parityList r) (placedCode r data) (parityList_nodup r) (fun p hp => hp)
    rfl (fun i _ => rfl) (fun i _ => rfl)).1 i h

theorem encodedCode_getD_parity (r : Nat) (data : List Nat) {p : Nat}
    (hp : p ∈ parityList r) :
    (encodedCode r data).getD p 0 =
      ((covered (2 ^ r - 1) p).map
        (fun i => (placedCode r data).getD i 0)).sum % 2 := by
  unfold encodedCode
  exact (parityFold_spec r (placedCode r data) (placedCode_length r data)
    (parityList r) (placedCode r data) (parityList_nodup r) (fun q hq => hq)
    rfl (fun i _ => rfl) (fun i _ => rfl)).2 p hp

/-! ## Sum splitting and fold-to-sum lemmas -/

theorem filter_ne_of_not_mem {p : Nat} {l : List Nat} (h : p ∉ l) :
    l.filter (fun i => i != p) = l := by
  rw [List.filter_eq_self]
  intro a ha
  simp only [bne_iff_ne, ne_eq]
  rintro rfl
  exact h ha

theorem mem_filter_ne {l : List Nat} {i p : Nat} :
    i ∈ l.filter (fun j => j != p) ↔ i ∈ l ∧ i ≠ p := by
  rw [List.mem_filter]
  simp [bne_iff_ne]

theorem sum_map_split (f : Nat → Nat) {p : Nat} :
    ∀ {l : List Nat}, l.Nodup → p ∈ l →
    (l.map f).sum = f p + ((l.filter (fun i => i != p)).map f).sum := by
  intro l
  induction l with
  | nil => intro _ h; cases h
  | cons a t ih =>
    intro hnd hp
    obtain ⟨hat, hndt⟩ := List.nodup_cons.mp hnd
    rcases List.mem_cons.mp hp with rfl | hp'
    · have hfilter : (p :: t).filter (fun i => i != p) = t := by
        rw [List.filter_cons]
        simp only [bne_self_eq_false, if_false]
        exact filter_ne_of_not_mem hat
      rw [hfilter, List.map_cons, List.sum_cons]
    · have hap : a ≠ p := fun e => hat (e ▸ hp')
      have hfilter : (a :: t).filter (fun i => i != p) =
          a :: t.filter (fun i => i != p) := by
        rw [List.filter_cons]
        simp [bne_iff_ne, hap]
      rw [hfilter, List.map_cons, List.sum_cons, List.map_cons, List.sum_cons,
        ih hndt hp']
      omega

theorem foldl_if_sum (P : Nat → Prop) [DecidablePred P] :
    ∀ (ps : List Nat) (s : Nat),
    ps.foldl (fun s q => if P q then s + q else s) s =
      s + (ps.filter (fun q => decide (P q))).sum := by
  intro ps
  induction ps with
  | nil => intro s; simp
  | cons a t ih =>
    intro s
    rw [List.foldl_cons]
    by_cases h : P a
    · have hd : decide (P a) = true := decide_eq_true h
      have hf : List.filter (fun q => decide (P q)) (a :: t) =
          a :: List.filter (fun q => decide (P q)) t := by
        simp [List.filter_cons, hd]
      rw [if_pos h, hf, ih, List.sum_cons]
      omega
    · have hd : decide (P a) = false := decide_eq_false h
      have hf : List.filter (fun q => decide (P q)) (a :: t) =
          List.filter (fun q => decide (P q)) t := by
        simp [List.filter_cons, hd]
      rw [if_neg h, hf, ih]

/-! ## The bit-decomposition of the syndrome -/

theorem testBit_filter_sum (p : Nat) :
    ∀ (r : Nat),
    (((List.range r).filter (fun a => p.testBit a)).map (fun a => 2 ^ a)).sum
      = p % 2 ^ r := by
  intro r
  induction r with
  | zero => simp [Nat.mod_one]
  | succ r ih =>
    rw [List.range_succ, List.filter_append, List.map_append, List.sum_append,
      ih]
    have hmp : p % 2 ^ (r + 1) = p % 2 ^ r + 2 ^ r * (p / 2 ^ r % 2) :=
      Nat.mod_pow_succ
    have hbit : p.testBit r = decide (p / 2 ^ r % 2 = 1) :=
      Nat.testBit_to_div_mod
    rcases Nat.mod_two_eq_zero_or_one (p / 2 ^ r) with h | h
    · have hb : p.testBit r = false := by rw [hbit, h]; rfl
      rw [h, Nat.mul_zero, Nat.add_zero] at hmp
      have hf : List.filter (fun a => p.testBit a) [r] = [] := by
        simp [List.filter_cons, hb]
      rw [hf, List.map_nil, List.sum_nil, Nat.add_zero, hmp]
      omega
    · have hb : p.testBit r = true := by rw [hbit, h]; rfl
      rw [h, Nat.mul_one] at hmp
      have hf : List.filter (fun a => p.testBit a) [r] = [r] := by
        simp [List.filter_cons, hb]
      rw [hf, List.map_cons, List.map_nil, List.sum_cons, List.sum_nil, hmp]
      omega

theorem parityList_filter_and_sum (r p : Nat) (hpn : p ≤ 2 ^ r - 1) :
    ((parityList r).filter (fun q => decide (p &&& q ≠ 0))).sum = p := by
  unfold parityList
  rw [List.filter_map]
  have hcongr : (List.range r).filter
      ((fun q => decide (p &&& q ≠ 0)) ∘ (fun i => 2 ^ i)) =
      (List.range r).filter (fun a => p.testBit a) := by
    apply List.filter_congr
    intro a _
    simp only [Function.comp]
    cases hb : p.testBit a
    · have : ¬ p &&& 2 ^ a ≠ 0 := by
        rw [and_two_pow_ne_zero_iff, hb]
        simp
      simp [this]
    · have : p &&& 2 ^ a ≠ 0 := and_two_pow_ne_zero_iff.mpr hb
      simp [this]
  rw [hcongr, testBit_filter_sum]
  have h2 : 1 ≤ 2 ^ r := Nat.one_le_two_pow
  exact Nat.mod_eq_of_lt (by omega)

/-! ## The encoded codeword -/

theorem encode_eq (r : Nat) (data : List Nat)
    (hlen : data.length = 2 ^ r - 1 - r) :
    (HammingCode.init r).encode data = .ok ((encodedCode r data).drop 1) := by
  unfold HammingCode.encode
  rw [if_neg (by simp [HammingCode.init, hlen])]
  rfl

theorem encoded_drop_length (r : Nat) (data : List Nat) :
    ((encodedCode r data).drop 1).length = 2 ^ r - 1 := by
  rw [List.length_drop, encodedCode_length]
  omega

theorem checkSum_encoded (r : Nat) (data : List Nat) {p : Nat}
    (hp : p ∈ parityList r) :
    checkSum (2 ^ r - 1) ((encodedCode r data).drop 1) p % 2 = 0 := by
  unfold checkSum
  have hread : (covered (2 ^ r - 1) p).map
      (fun i => ((encodedCode r data).drop 1).getD (i - 1) 0) =
      (covered (2 ^ r - 1) p).map (fun i => (encodedCode r data).getD i 0) := by
    apply List.map_congr_left
    intro i hi
    exact drop_one_getD _ (mem_covered.mp hi).1
  rw [hread]
  have hnd := covered_nodup (2 ^ r - 1) p
  have hpc := self_mem_covered hp
  rw [sum_map_split (fun i => (encodedCode r data).getD i 0) hnd hpc,
    encodedCode_getD_parity r data hp,
    sum_map_split (fun i => (placedCode r data).getD i 0) hnd hpc,
    placedCode_parity_zero r data hp]
  have hrest : ((covered (2 ^ r - 1) p).filter (fun i => i != p)).map
      (fun i => (encodedCode r data).getD i 0) =
      ((covered (2 ^ r - 1) p).filter (fun i => i != p)).map
      (fun i => (placedCode r data).getD i 0) := by
    apply List.map_congr_left
    intro i hi
    obtain ⟨hic, hip⟩ := mem_filter_ne.mp hi
    apply encodedCode_getD_not_parity
    intro hipar
    exact hip (parity_mem_covered hp hipar hic)
  rw [hrest]
  omega

theorem syndrome_eq_filter_sum (r : Nat) (cw : List Nat) :
    (HammingCode.init r).syndrome cw =
      ((parityList r).filter
        (fun q => decide (checkSum (2 ^ r - 1) cw q % 2 ≠ 0))).sum := by
  have h := foldl_if_sum (fun q => checkSum (2 ^ r - 1) cw q % 2 ≠ 0)
    (parityList r) 0
  unfold HammingCode.syndrome
  show (parityList r).foldl
      (fun s p => if checkSum (2 ^ r - 1) cw p % 2 ≠ 0 then s + p else s) 0 =
    ((parityList r).filter
      (fun q => decide (checkSum (2 ^ r - 1) cw q % 2 ≠ 0))).sum
  rw [h]
  omega

theorem syndrome_encoded (r : Nat) (data : List Nat) :
    (HammingCode.init r).syndrome ((encodedCode r data).drop 1) = 0 := by
  rw [syndrome_eq_filter_sum]
  have hnil : (parityList r).filter
      (fun q => decide
        (checkSum (2 ^ r - 1) ((encodedCode r data).drop 1) q % 2 ≠ 0)) = [] := by
    rw [List.filter_eq_nil_iff]
    intro q hq
    have h := checkSum_encoded r data hq
    rw [List.drop_one] at h
    simp [h]
  rw [hnil]
  rfl

theorem extractData_encoded (r : Nat) (data : List Nat)
    (hlen : data.length = 2 ^ r - 1 - r) :
    extractData (2 ^ r - 1) (parityList r) ((encodedCode r data).drop 1) =
      data := by
  unfold extractData
  have h2 : (dataPositions r).map
      (fun i => ((encodedCode r data).drop 1).getD (i - 1) 0) =
      (dataPositions r).map (fun i => (placedCode r data).getD i 0) := by
    apply List.map_congr_left
    intro i hi
    obtain ⟨hi1, _, hi3⟩ := mem_dataPositions.mp hi
    rw [drop_one_getD _ hi1]
    exact encodedCode_getD_not_parity r data hi3
  show (dataPositions r).map
      (fun i => ((encodedCode r data).drop 1).getD (i - 1) 0) = data
  rw [h2]
  exact placedCode_map_getD r data hlen

theorem encodedCode_getD_bits (r : Nat) (data : List Nat)
    (hbits : IsBits data) (hlen : data.length = 2 ^ r - 1 - r) (i : Nat) :
    (encodedCode r data).getD i 0 = 0 ∨ (encodedCode r data).getD i 0 = 1 := by
  by_cases hp : i ∈ parityList r
  · rw [encodedCode_getD_parity r data hp]
    exact Nat.mod_two_eq_zero_or_one _
  · rw [encodedCode_getD_not_parity r data hp]
    by_cases hd : i ∈ dataPositions r
    · have hmem : (placedCode r data).getD i 0 ∈
          (dataPositions r).map (fun j => (placedCode r data).getD j 0) :=
        List.mem_map_of_mem _ hd
      rw [placedCode_map_getD r data hlen] at hmem
      exact hbits _ hmem
    · rw [placedCode_getD_not_mem r data hd]
      left
      rfl

/-! ## Effect of a single bit flip on the checks and the syndrome -/

theorem checkSum_flip (r : Nat) (cw : List Nat) (p : Nat)
    (hcwlen : cw.length = 2 ^ r - 1)
    (hbit : cw.getD (p - 1) 0 = 0 ∨ cw.getD (p - 1) 0 = 1)
    (hzero : ∀ q ∈ parityList r, checkSum (2 ^ r - 1) cw q % 2 = 0)
    (hp1 : 1 ≤ p) (hpn : p ≤ 2 ^ r - 1) :
    ∀ q ∈ parityList r,
    checkSum (2 ^ r - 1) (cw.set (p - 1) (cw.getD (p - 1) 0 ^^^ 1)) q % 2 =
      if p &&& q ≠ 0 then 1 else 0 := by
  intro q hq
  have hplen : p - 1 < cw.length := by omega
  by_cases hcov : p &&& q ≠ 0
  · have hpcov : p ∈ covered (2 ^ r - 1) q := mem_covered.mpr ⟨hp1, hpn, hcov⟩
    have hnd := covered_nodup (2 ^ r - 1) q
    unfold checkSum
    rw [sum_map_split
      (fun i => (cw.set (p - 1) (cw.getD (p - 1) 0 ^^^ 1)).getD (i - 1) 0)
      hnd hpcov]
    have hT : ((covered (2 ^ r - 1) q).filter (fun i => i != p)).map
        (fun i => (cw.set (p - 1) (cw.getD (p - 1) 0 ^^^ 1)).getD (i - 1) 0) =
        ((covered (2 ^ r - 1) q).filter (fun i => i != p)).map
        (fun i => cw.getD (i - 1) 0) := by
      apply List.map_congr_left
      intro i hi
      obtain ⟨hic, hip⟩ := mem_filter_ne.mp hi
      have hi1 := (mem_covered.mp hic).1
      exact getD_set_ne cw (show p - 1 ≠ i - 1 by omega) _ _
    rw [hT]
    have hcs := hzero q hq
    unfold checkSum at hcs
    rw [sum_map_split (fun i => cw.getD (i - 1) 0) hnd hpcov] at hcs
    have hset : (cw.set (p - 1) (cw.getD (p - 1) 0 ^^^ 1)).getD (p - 1) 0 =
        cw.getD (p - 1) 0 ^^^ 1 := getD_set_self cw _ _ hplen
    rw [hset, if_pos hcov]
    rcases hbit with hb | hb
    · rw [hb] at hcs ⊢
      rw [Nat.zero_xor]
      omega
    · rw [hb] at hcs ⊢
      rw [Nat.xor_self]
      omega
  · have hsame : checkSum (2 ^ r - 1)
        (cw.set (p - 1) (cw.getD (p - 1) 0 ^^^ 1)) q =
        checkSum (2 ^ r - 1) cw q := by
      unfold checkSum
      apply congrArg
      apply List.map_congr_left
      intro i hi
      obtain ⟨hi1, _, hiand⟩ := mem_covered.mp hi
      have hip : i ≠ p := by
        intro e
        subst e
        exact hcov hiand
      exact getD_set_ne cw (show p - 1 ≠ i - 1 by omega) _ _
    rw [hsame, hzero q hq, if_neg hcov]

theorem syndrome_flip (r : Nat) (cw : List Nat) (p : Nat)
    (hcwlen : cw.length = 2 ^ r - 1)
    (hbit : cw.getD (p - 1) 0 = 0 ∨ cw.getD (p - 1) 0 = 1)
    (hzero : ∀ q ∈ parityList r, checkSum (2 ^ r - 1) cw q % 2 = 0)
    (hp1 : 1 ≤ p) (hpn : p ≤ 2 ^ r - 1) :
    (HammingCode.init r).syndrome
      (cw.set (p - 1) (cw.getD (p - 1) 0 ^^^ 1)) = p := by
  rw [syndrome_eq_filter_sum]
  have hcongr : (parityList r).filter
      (fun q => decide (checkSum (2 ^ r - 1)
        (cw.set (p - 1) (cw.getD (p - 1) 0 ^^^ 1)) q % 2 ≠ 0)) =
      (parityList r).filter (fun q => decide (p &&& q ≠ 0)) := by
    apply List.filter_congr
    intro q hq
    rw [checkSum_flip r cw p hcwlen hbit hzero hp1 hpn q hq]
    by_cases h : p &&& q ≠ 0
    · rw [if_pos h]
      simp [h]
    · rw [if_neg h]
      simp [h]
  rw [hcongr]
  exact parityList_filter_and_sum r p hpn

/-! ## Unfolding lemmas for `decode` and `simulate_error` -/

theorem decode_syndrome_zero (r : Nat) (cw : List Nat)
    (hlen : cw.length = 2 ^ r - 1)
    (hs : (HammingCode.init r).syndrome cw = 0) :
    (HammingCode.init r).decode cw =
      .ok (extractData (2 ^ r - 1) (parityList r) cw, false) := by
  unfold HammingCode.decode
  rw [if_neg (by simp [HammingCode.init, hlen])]
  rw [hs]
  rfl

theorem decode_syndrome_ne (r : Nat) (cw : List Nat)
    (hlen : cw.length = 2 ^ r - 1) (s : Nat)
    (hs : (HammingCode.init r).syndrome cw = s) (hns : s ≠ 0) :
    (HammingCode.init r).decode cw =
      .ok (extractData (2 ^ r - 1) (parityList r)
        (cw.set (s - 1) (cw.getD (s - 1) 0 ^^^ 1)), true) := by
  unfold HammingCode.decode
  rw [if_neg (by simp [HammingCode.init, hlen])]
  rw [hs]
  simp only [if_pos hns]
  rfl

theorem simulate_error_ok (r : Nat) (cw : List Nat) (p : Nat) (hp1 : 1 ≤ p)
    (hpn : p ≤ 2 ^ r - 1) :
    (HammingCode.init r).simulate_error cw (p : Int) =
      .ok (cw.set (p - 1) (cw.getD (p - 1) 0 ^^^ 1)) := by
  unfold HammingCode.simulate_error
  have hc : ¬((p : Int) < 1 ∨ (p : Int) > ((HammingCode.init r).n : Int)) := by
    have hn : (HammingCode.init r).n = 2 ^ r - 1 := rfl
    rw [hn]
    push_neg
    omega
  rw [if_neg hc, Int.toNat_natCast]

/-! ## The claims -/

/-- Claim C2: for every r ≥ 2 and every 0/1 data sequence of length k,
`decode(encode(data))` returns exactly the original data together with
`corrected = false` (error-free round trip, no spurious correction). -/
theorem C2_round_trip (r : Nat) (_hr : 2 ≤ r) (data : List Nat)
    (_hbits : IsBits data) (hlen : data.length = (HammingCode.init r).k) :
    ∃ cw, (HammingCode.init r).encode data = .ok cw ∧
      (HammingCode.init r).decode cw = .ok (data, false) := by
  have hlen' : data.length = 2 ^ r - 1 - r := hlen
  refine ⟨(encodedCode r data).drop 1, encode_eq r data hlen', ?_⟩
  rw [decode_syndrome_zero r _ (encoded_drop_length r data)
    (syndrome_encoded r data)]
  rw [extractData_encoded r data hlen']

/-- Claim C1: for every r ≥ 2, every 0/1 data sequence of length k and every
position p with 1 ≤ p ≤ n, decoding `simulate_error(encode(data), p)` returns
the original data unchanged together with `corrected = true`. -/
theorem C1_single_error_correction (r : Nat) (_hr : 2 ≤ r) (data : List Nat)
    (hbits : IsBits data) (hlen : data.length = (HammingCode.init r).k)
    (p : Nat) (hp1 : 1 ≤ p) (hpn : p ≤ (HammingCode.init r).n) :
    ∃ cw cwe, (HammingCode.init r).encode data = .ok cw ∧
      (HammingCode.init r).simulate_error cw (p : Int) = .ok cwe ∧
      (HammingCode.init r).decode cwe = .ok (data, true) := by
  have hlen' : data.length = 2 ^ r - 1 - r := hlen
  have hpn' : p ≤ 2 ^ r - 1 := hpn
  have hcwlen : ((encodedCode r data).drop 1).length = 2 ^ r - 1 :=
    encoded_drop_length r data
  have hbitp : ((encodedCode r data).drop 1).getD (p - 1) 0 = 0 ∨
      ((encodedCode r data).drop 1).getD (p - 1) 0 = 1 := by
    rw [drop_one_getD _ hp1]
    exact encodedCode_getD_bits r data hbits hlen' p
  have hzero : ∀ q ∈ parityList r,
      checkSum (2 ^ r - 1) ((encodedCode r data).drop 1) q % 2 = 0 :=
    fun q hq => checkSum_encoded r data hq
  have hsyn := syndrome_flip r ((encodedCode r data).drop 1) p hcwlen hbitp
    hzero hp1 hpn'
  have hcwelen : (((encodedCode r data).drop 1).set (p - 1)
      (((encodedCode r data).drop 1).getD (p - 1) 0 ^^^ 1)).length =
      2 ^ r - 1 := by
    rw [List.length_set, hcwlen]
  have hdec := decode_syndrome_ne r _ hcwelen p hsyn (by omega)
  have hplt : p - 1 < ((encodedCode r data).drop 1).length := by
    rw [hcwlen]
    omega
  have hback : (((encodedCode r data).drop 1).set (p - 1)
        (((encodedCode r data).drop 1).getD (p - 1) 0 ^^^ 1)).set (p - 1)
        ((((encodedCode r data).drop 1).set (p - 1)
          (((encodedCode r data).drop 1).getD (p - 1) 0 ^^^ 1)).getD (p - 1) 0
          ^^^ 1) =
      (encodedCode r data).drop 1 := by
    rw [getD_set_self _ _ _ hplt, Nat.xor_cancel_right, List.set_set,
      set_getD_self _ _ hplt]
  refine ⟨(encodedCode r data).drop 1, _,
    encode_eq r data hlen', simulate_error_ok r _ p hp1 hpn', ?_⟩
  rw [hdec, hback, extractData_encoded r data hlen']

theorem encode3_1011 :
    (HammingCode.init 3).encode [1, 0, 1, 1] = .ok [0, 1, 1, 0, 0, 1, 1] :=
  rfl

/-- Claim C3 counterexample: for r = 3, `encode([1,0,1,1])` is not the
spec's claimed codeword `[1,1,0,0,1,0,1]` (it is `[0,1,1,0,0,1,1]`). -/
theorem C3_counterexample :
    (HammingCode.init 3).encode [1, 0, 1, 1] ≠
      Except.ok [1, 1, 0, 0, 1, 0, 1] := by
  rw [encode3_1011]
  exact fun h => absurd (Except.ok.inj h) (by decide)

/-- Claim C3, amended: for r = 3, `encode([1,0,1,1]) = [0,1,1,0,0,1,1]`, and
decoding the result of flipping position 3 returns `([1,0,1,1], true)`. -/
theorem C3_amended :
    (HammingCode.init 3).encode [1, 0, 1, 1] = .ok [0, 1, 1, 0, 0, 1, 1] ∧
    (HammingCode.init 3).simulate_error [0, 1, 1, 0, 0, 1, 1] 3 =
      .ok [0, 1, 0, 0, 0, 1, 1] ∧
    (HammingCode.init 3).decode [0, 1, 0, 0, 0, 1, 1] =
      .ok ([1, 0, 1, 1], true) := by
  refine ⟨?_, ?_, ?_⟩ <;> rfl

/-- Claim C4 counterexample: construction with r = 0 (< 1) does not fail;
`__init__` performs no validation and yields the degenerate instance with
n = 0, k = 0 and no parity positions. -/
theorem C4_counterexample :
    HammingCode.init 0 = { r := 0, n := 0, k := 0, parity_positions := [] } :=
  rfl

/-- Claim C4, amended: construction never fails (no validation of r is
performed; r = 0 yields a degenerate instance), and for every r ≥ 1 it yields
n = 2^r − 1, k = n − r, and parity positions exactly the powers
2^0 .. 2^(r−1). -/
theorem C4_amended (r : Nat) (_hr : 1 ≤ r) :
    (HammingCode.init r).n = 2 ^ r - 1 ∧
    (HammingCode.init r).k = (HammingCode.init r).n - r ∧
    (∀ p, p ∈ (HammingCode.init r).parity_positions ↔
      ∃ i, i < r ∧ p = 2 ^ i) := by
  refine ⟨rfl, rfl, fun p => ?_⟩
  show p ∈ parityList r ↔ _
  rw [mem_parityList]
  constructor
  · rintro ⟨a, ha, hap⟩
    exact ⟨a, ha, hap.symm⟩
  · rintro ⟨a, ha, hap⟩
    exact ⟨a, ha, hap.symm⟩

/-- Claim C5: for every r ≥ 1 and every 0/1 data sequence of length k, the
codeword has length n, carries the data bits at the non-parity positions in
increasing order, and each parity position p holds the XOR of the bits at all
other covered positions — equivalently every full parity check over the
codeword sums to 0 mod 2. -/
theorem C5_encode_structure (r : Nat) (_hr : 1 ≤ r) (data : List Nat)
    (_hbits : IsBits data) (hlen : data.length = (HammingCode.init r).k) :
    ∃ cw, (HammingCode.init r).encode data = .ok cw ∧
      cw.length = (HammingCode.init r).n ∧
      extractData (HammingCode.init r).n (HammingCode.init r).parity_positions
        cw = data ∧
      (∀ p ∈ (HammingCode.init r).parity_positions,
        cw.getD (p - 1) 0 =
          (((covered (HammingCode.init r).n p).filter (fun i => i != p)).map
            (fun i => cw.getD (i - 1) 0)).sum % 2) ∧
      (∀ p ∈ (HammingCode.init r).parity_positions,
        checkSum (HammingCode.init r).n cw p % 2 = 0) := by
  have hlen' : data.length = 2 ^ r - 1 - r := hlen
  refine ⟨(encodedCode r data).drop 1, encode_eq r data hlen',
    encoded_drop_length r data, extractData_encoded r data hlen', ?_, ?_⟩
  · intro p hp
    simp only [show (HammingCode.init r).n = 2 ^ r - 1 from rfl] at hp ⊢
    have hp' : p ∈ parityList r := hp
    have hp1 := mem_parityList_pos hp'
    rw [drop_one_getD _ hp1, encodedCode_getD_parity r data hp']
    rw [sum_map_split (fun i => (placedCode r data).getD i 0)
      (covered_nodup _ _) (self_mem_covered hp'),
      placedCode_parity_zero r data hp']
    have hmap : ((covered (2 ^ r - 1) p).filter (fun i => i != p)).map
        (fun i => ((encodedCode r data).drop 1).getD (i - 1) 0) =
        ((covered (2 ^ r - 1) p).filter (fun i => i != p)).map
        (fun i => (placedCode r data).getD i 0) := by
      apply List.map_congr_left
      intro i hi
      obtain ⟨hic, hip⟩ := mem_filter_ne.mp hi
      rw [drop_one_getD _ (mem_covered.mp hic).1]
      apply encodedCode_getD_not_parity
      intro hipar
      exact hip (parity_mem_covered hp' hipar hic)
    rw [hmap]
    omega
  · intro p hp
    have hp' : p ∈ parityList r := hp
    exact checkSum_encoded r data hp'

/-- Claim C6: for every r ≥ 1 and every length-n 0/1 input, the syndrome
computed by decode lies in [0, n], so a nonzero syndrome always gives an
in-range 0-based index syndrome − 1 of the codeword copy. -/
theorem C6_syndrome_bound (r : Nat) (hr : 1 ≤ r) (cw : List Nat)
    (_hlen : cw.length = (HammingCode.init r).n) (_hbits : IsBits cw) :
    (HammingCode.init r).syndrome cw ≤ (HammingCode.init r).n ∧
    ((HammingCode.init r).syndrome cw ≠ 0 →
      (HammingCode.init r).syndrome cw - 1 < (HammingCode.init r).n) := by
  have hle : (HammingCode.init r).syndrome cw ≤ 2 ^ r - 1 := by
    rw [syndrome_eq_filter_sum]
    have hsub : (List.filter
        (fun q => decide (checkSum (2 ^ r - 1) cw q % 2 ≠ 0))
        (parityList r)).Sublist (parityList r) := List.filter_sublist _
    have hsum := List.Sublist.sum_le_sum hsub (fun a _ => Nat.zero_le a)
    rw [parityList_sum] at hsum
    exact hsum
  have h2 : 2 ≤ 2 ^ r := by
    calc 2 = 2 ^ 1 := rfl
    _ ≤ 2 ^ r := Nat.pow_le_pow_right (by norm_num) hr
  have hn : (HammingCode.init r).n = 2 ^ r - 1 := rfl
  rw [hn]
  exact ⟨hle, fun _ => by omega⟩

/-- Claim C7: encode fails (with the length ValueError) iff the input length
differs from k, and decode fails iff the input length differs from n; on
valid-length input both return a result. -/
theorem C7_length_mismatch (r : Nat) (_hr : 1 ≤ r) :
    (∀ data : List Nat,
      ((∃ e, (HammingCode.init r).encode data = .error e) ↔
        data.length ≠ (HammingCode.init r).k) ∧
      (data.length = (HammingCode.init r).k →
        ∃ cw, (HammingCode.init r).encode data = .ok cw)) ∧
    (∀ cw : List Nat,
      ((∃ e, (HammingCode.init r).decode cw = .error e) ↔
        cw.length ≠ (HammingCode.init r).n) ∧
      (cw.length = (HammingCode.init r).n →
        ∃ res, (HammingCode.init r).decode cw = .ok res)) := by
  constructor
  · intro data
    by_cases h : data.length = (HammingCode.init r).k
    · have hok := encode_eq r data h
      refine ⟨⟨?_, fun hne => absurd h hne⟩, fun _ => ⟨_, hok⟩⟩
      rintro ⟨e, he⟩
      rw [hok] at he
      simp at he
    · have herr : (HammingCode.init r).encode data =
          .error ("Data length must be " ++ toString (HammingCode.init r).k) := by
        unfold HammingCode.encode
        rw [if_pos h]
      exact ⟨⟨fun _ => h, fun _ => ⟨_, herr⟩⟩, fun hk => absurd hk h⟩
  · intro cw
    by_cases h : cw.length = (HammingCode.init r).n
    · have hok : ∃ res, (HammingCode.init r).decode cw = .ok res := by
        unfold HammingCode.decode
        rw [if_neg (by simp [h])]
        exact ⟨_, rfl⟩
      obtain ⟨res, hres⟩ := hok
      refine ⟨⟨?_, fun hne => absurd h hne⟩, fun _ => ⟨res, hres⟩⟩
      rintro ⟨e, he⟩
      rw [hres] at he
      simp at he
    · have herr : (HammingCode.init r).decode cw =
          .error ("Codeword length must be " ++ toString (HammingCode.init r).n) := by
        unfold HammingCode.decode
        rw [if_pos h]
      exact ⟨⟨fun _ => h, fun _ => ⟨_, herr⟩⟩, fun hk => absurd hk h⟩

/-- Claim C8: simulate_error fails (IndexError) iff pos < 1 or pos > n;
otherwise it returns a new sequence identical to the input except that the
bit at 1-based pos is inverted. -/
theorem C8_simulate_error_spec (r : Nat) (_hr : 1 ≤ r) (cw : List Nat)
    (hlen : cw.length = (HammingCode.init r).n) (hbits : IsBits cw)
    (pos : Int) :
    ((∃ e, (HammingCode.init r).simulate_error cw pos = .error e) ↔
      (pos < 1 ∨ pos > ((HammingCode.init r).n : Int))) ∧
    (1 ≤ pos → pos ≤ ((HammingCode.init r).n : Int) →
      ∃ cwe, (HammingCode.init r).simulate_error cw pos = .ok cwe ∧
        cwe.length = cw.length ∧
        cwe.getD (pos.toNat - 1) 0 = 1 - cw.getD (pos.toNat - 1) 0 ∧
        (∀ j, j ≠ pos.toNat - 1 → cwe.getD j 0 = cw.getD j 0)) := by
  constructor
  · by_cases hc : pos < 1 ∨ pos > ((HammingCode.init r).n : Int)
    · have herr : (HammingCode.init r).simulate_error cw pos =
          .error "Position out of range" := by
        unfold HammingCode.simulate_error
        rw [if_pos hc]
      exact ⟨fun _ => hc, fun _ => ⟨_, herr⟩⟩
    · have hok : (HammingCode.init r).simulate_error cw pos =
          .ok (cw.set (pos.toNat - 1) (cw.getD (pos.toNat - 1) 0 ^^^ 1)) := by
        unfold HammingCode.simulate_error
        rw [if_neg hc]
      refine ⟨?_, fun h => absurd h hc⟩
      rintro ⟨e, he⟩
      rw [hok] at he
      simp at he
  · intro h1 h2
    have hc : ¬(pos < 1 ∨ pos > ((HammingCode.init r).n : Int)) := by
      push_neg
      exact ⟨h1, h2⟩
    have hok : (HammingCode.init r).simulate_error cw pos =
        .ok (cw.set (pos.toNat - 1) (cw.getD (pos.toNat - 1) 0 ^^^ 1)) := by
      unfold HammingCode.simulate_error
      rw [if_neg hc]
    have hn : (HammingCode.init r).n = 2 ^ r - 1 := rfl
    rw [hn] at h2
    have hidx : pos.toNat - 1 < cw.length := by
      rw [hlen, hn]
      omega
    refine ⟨_, hok, List.length_set _ _ _, ?_, ?_⟩
    · rw [getD_set_self _ _ _ hidx]
      have hmem : cw.getD (pos.toNat - 1) 0 ∈ cw := by
        rw [List.getD_eq_getElem cw 0 hidx]
        exact List.getElem_mem hidx
      rcases hbits _ hmem with hb | hb <;> rw [hb] <;> rfl
    · intro j hj
      exact getD_set_ne cw (fun e => hj e.symm) _ _

/-- Claim C9: flipping the same position twice restores the original
codeword: `simulate_error(simulate_error(x, p), p) = x`. -/
theorem C9_double_flip (r : Nat) (_hr : 1 ≤ r) (x : List Nat)
    (hlen : x.length = (HammingCode.init r).n) (_hbits : IsBits x) (p : Nat)
    (hp1 : 1 ≤ p) (hpn : p ≤ (HammingCode.init r).n) :
    ∃ y, (HammingCode.init r).simulate_error x (p : Int) = .ok y ∧
      (HammingCode.init r).simulate_error y (p : Int) = .ok x := by
  have hpn' : p ≤ 2 ^ r - 1 := hpn
  have hm : p - 1 < x.length := by
    have hx : x.length = 2 ^ r - 1 := hlen
    omega
  refine ⟨_, simulate_error_ok r x p hp1 hpn', ?_⟩
  rw [simulate_error_ok r _ p hp1 hpn',
    getD_set_self x (x.getD (p - 1) 0 ^^^ 1) 0 hm, Nat.xor_cancel_right,
    List.set_set, set_getD_self x 0 hm]

/-- Claim C10 (frame property): in the heap model of `decode`, the caller's
codeword cell is bit-for-bit unchanged by the call — the corrective flip is
applied to the freshly allocated copy only. -/
theorem C10_decode_frame (r : Nat) (_hr : 1 ≤ r) (store : List (List Nat))
    (ref : Nat) (href : ref < store.length)
    (_hlen : (store.getD ref []).length = (HammingCode.init r).n) :
    ((HammingCode.init r).decodeHeap store ref).1.getD ref [] =
      store.getD ref [] := by
  unfold HammingCode.decodeHeap
  by_cases hlc : (store.getD ref []).length ≠ (HammingCode.init r).n
  · rw [if_pos hlc]
  · rw [if_neg hlc]
    dsimp only
    have happ : ∀ c : List Nat,
        (store ++ [c]).getD ref [] = store.getD ref [] := by
      intro c
      rw [List.getD_eq_getElem?_getD, List.getElem?_append, if_pos href,
        ← List.getD_eq_getElem?_getD]
    by_cases hs : (HammingCode.init r).syndrome (store.getD ref []) ≠ 0
    · rw [if_pos hs, getD_set_ne _ (show store.length ≠ ref by omega) _ _,
        happ]
    · rw [if_neg hs, happ]

/-! ## Concrete witnesses -/

theorem C1_witness :
    (2 ≤ 3 ∧ IsBits [1, 0, 1, 1] ∧
      [1, 0, 1, 1].length = (HammingCode.init 3).k ∧
      1 ≤ 3 ∧ 3 ≤ (HammingCode.init 3).n) ∧
    ∃ cw cwe, (HammingCode.init 3).encode [1, 0, 1, 1] = .ok cw ∧
      (HammingCode.init 3).simulate_error cw ((3 : Nat) : Int) = .ok cwe ∧
      (HammingCode.init 3).decode cwe = .ok ([1, 0, 1, 1], true) :=
  ⟨⟨by decide, by decide, by decide, by decide, by decide⟩,
    C1_single_error_correction 3 (by decide) [1, 0, 1, 1] (by decide)
      (by decide) 3 (by decide) (by decide)⟩

theorem C2_witness :
    (2 ≤ 2 ∧ IsBits [1] ∧ [1].length = (HammingCode.init 2).k) ∧
    ∃ cw, (HammingCode.init 2).encode [1] = .ok cw ∧
      (HammingCode.init 2).decode cw = .ok ([1], false) :=
  ⟨⟨by decide, by decide, by decide⟩,
    C2_round_trip 2 (by decide) [1] (by decide) (by decide)⟩

theorem C4_witness :
    1 ≤ 3 ∧
    ((HammingCode.init 3).n = 2 ^ 3 - 1 ∧
     (HammingCode.init 3).k = (HammingCode.init 3).n - 3 ∧
     (∀ p, p ∈ (HammingCode.init 3).parity_positions ↔
       ∃ i, i < 3 ∧ p = 2 ^ i)) :=
  ⟨by decide, C4_amended 3 (by decide)⟩

theorem C5_witness :
    (1 ≤ 3 ∧ IsBits [1, 0, 1, 1] ∧
      [1, 0, 1, 1].length = (HammingCode.init 3).k) ∧
    ∃ cw, (HammingCode.init 3).encode [1, 0, 1, 1] = .ok cw ∧
      cw.length = (HammingCode.init 3).n ∧
      extractData (HammingCode.init 3).n (HammingCode.init 3).parity_positions
        cw = [1, 0, 1, 1] ∧
      (∀ p ∈ (HammingCode.init 3).parity_positions,
        cw.getD (p - 1) 0 =
          (((covered (HammingCode.init 3).n p).filter (fun i => i != p)).map
            (fun i => cw.getD (i - 1) 0)).sum % 2) ∧
      (∀ p ∈ (HammingCode.init 3).parity_positions,
        checkSum (HammingCode.init 3).n cw p % 2 = 0) :=
  ⟨⟨by decide, by decide, by decide⟩,
    C5_encode_structure 3 (by decide) [1, 0, 1, 1] (by decide) (by decide)⟩

theorem C6_witness :
    (1 ≤ 3 ∧ [0, 1, 0, 0, 0, 1, 1].length = (HammingCode.init 3).n ∧
      IsBits [0, 1, 0, 0, 0, 1, 1]) ∧
    ((HammingCode.init 3).syndrome [0, 1, 0, 0, 0, 1, 1] ≤
      (HammingCode.init 3).n ∧
    ((HammingCode.init 3).syndrome [0, 1, 0, 0, 0, 1, 1] ≠ 0 →
      (HammingCode.init 3).syndrome [0, 1, 0, 0, 0, 1, 1] - 1 <
        (HammingCode.init 3).n)) :=
  ⟨⟨by decide, by decide, by decide⟩,
    C6_syndrome_bound 3 (by decide) [0, 1, 0, 0, 0, 1, 1] (by decide)
      (by decide)⟩

theorem C7_witness :
    1 ≤ 3 ∧
    ((∀ data : List Nat,
      ((∃ e, (HammingCode.init 3).encode data = .error e) ↔
        data.length ≠ (HammingCode.init 3).k) ∧
      (data.length = (HammingCode.init 3).k →
        ∃ cw, (HammingCode.init 3).encode data = .ok cw)) ∧
    (∀ cw : List Nat,
      ((∃ e, (HammingCode.init 3).decode cw = .error e) ↔
        cw.length ≠ (HammingCode.init 3).n) ∧
      (cw.length = (HammingCode.init 3).n →
        ∃ res, (HammingCode.init 3).decode cw = .ok res))) :=
  ⟨by decide, C7_length_mismatch 3 (by decide)⟩

theorem C8_witness :
    (1 ≤ 3 ∧ [0, 1, 1, 0, 0, 1, 1].length = (HammingCode.init 3).n ∧
      IsBits [0, 1, 1, 0, 0, 1, 1]) ∧
    (((∃ e, (HammingCode.init 3).simulate_error [0, 1, 1, 0, 0, 1, 1]
        (2 : Int) = .error e) ↔
      ((2 : Int) < 1 ∨ (2 : Int) > ((HammingCode.init 3).n : Int))) ∧
    (1 ≤ (2 : Int) → (2 : Int) ≤ ((HammingCode.init 3).n : Int) →
      ∃ cwe, (HammingCode.init 3).simulate_error [0, 1, 1, 0, 0, 1, 1]
          (2 : Int) = .ok cwe ∧
        cwe.length = [0, 1, 1, 0, 0, 1, 1].length ∧
        cwe.getD ((2 : Int).toNat - 1) 0 =
          1 - [0, 1, 1, 0, 0, 1, 1].getD ((2 : Int).toNat - 1) 0 ∧
        (∀ j, j ≠ (2 : Int).toNat - 1 →
          cwe.getD j 0 = [0, 1, 1, 0, 0, 1, 1].getD j 0))) :=
  ⟨⟨by decide, by decide, by decide⟩,
    C8_simulate_error_spec 3 (by decide) [0, 1, 1, 0, 0, 1, 1] (by decide)
      (by decide) (2 : Int)⟩

theorem C9_witness :
    (1 ≤ 3 ∧ [1, 1, 1, 1, 1, 1, 1].length = (HammingCode.init 3).n ∧
      IsBits [1, 1, 1, 1, 1, 1, 1] ∧ 1 ≤ 5 ∧ 5 ≤ (HammingCode.init 3).n) ∧
    ∃ y, (HammingCode.init 3).simulate_error [1, 1, 1, 1, 1, 1, 1]
        ((5 : Nat) : Int) = .ok y ∧
      (HammingCode.init 3).simulate_error y ((5 : Nat) : Int) =
        .ok [1, 1, 1, 1, 1, 1, 1] :=
  ⟨⟨by decide, by decide, by decide, by decide, by decide⟩,
    C9_double_flip 3 (by decide) [1, 1, 1, 1, 1, 1, 1] (by decide)
      (by decide) 5 (by decide) (by decide)⟩

theorem C10_witness :
    (1 ≤ 3 ∧ 0 < [[0, 1, 0, 0, 0, 1, 1]].length ∧
      ([[0, 1, 0, 0, 0, 1, 1]].getD 0 []).length = (HammingCode.init 3).n) ∧
    ((HammingCode.init 3).decodeHeap [[0, 1, 0, 0, 0, 1, 1]] 0).1.getD 0 [] =
      [[0, 1, 0, 0, 0, 1, 1]].getD 0 [] :=
  ⟨⟨by decide, by decide, by decide⟩,
    C10_decode_frame 3 (by decide) [[0, 1, 0, 0, 0, 1, 1]] 0 (by decide)
      (by decide)⟩
